import Mathlib

/-!
Shallow embedding of the `unique-state-disjoints` program (`src/main.rs`).

Text lines are modelled as `List Char` (one entry of the Rust `str::lines`
iterator per list element).  The concurrent stages of the Rust program emit
their results into mpsc channels; a worker never mutates shared data, so the
multiset of emitted pairs is deterministic and each stage is embedded as the
sequential list of its emissions (states in list order, words in list order).
The stable `sort`/`sort_by` calls of Rust are embedded with
`List.insertionSort`, which is likewise a stable sort.
-/

namespace UniqueStateDisjoints

/-- Embeds `struct CharsetEntry<'a> { original: &'a str, chars: Vec<char> }`. -/
structure CharsetEntry where
  original : List Char
  chars : List Char
deriving DecidableEq

/-- Embeds `struct Comparisson<'a> { word: &CharsetEntry, state: &CharsetEntry }`. -/
structure Comparisson where
  word : CharsetEntry
  state : CharsetEntry
deriving DecidableEq

/-- The inner loop of `is_disjoint`: `for (index, j) in b.iter().skip(skip).enumerate()`.
`k` is the `enumerate` counter (relative to the start of the window), `skip` the
current value of the mutable `skip` variable.  Returns `none` when the Rust code
executes `return false` (an equal pair was found), otherwise the final value of
`skip` after the inner loop. -/
def scanSkip (i : Char) : List Char → Nat → Nat → Option Nat
  | [], _, skip => some skip
  | j :: rest, k, skip =>
    if i = j then none
    else scanSkip i rest (k + 1) (if j < i then k else skip)

/-- The outer loop of `is_disjoint`: `for i in a`, threading the `skip` variable. -/
def isDisjointGo : List Char → List Char → Nat → Bool
  | [], _, _ => true
  | i :: arest, b, skip =>
    match scanSkip i (b.drop skip) 0 skip with
    | none => false
    | some skip' => isDisjointGo arest b skip'

/-- Embeds `fn is_disjoint(a: &[char], b: &[char]) -> bool`. -/
def is_disjoint (a b : List Char) : Bool := isDisjointGo a b 0

/-- The successive values of the mutable `skip` variable of `is_disjoint`,
recorded after each completed inner scan (the run stops when the function
returns `false`). -/
def skipTrace : List Char → List Char → Nat → List Nat
  | [], _, _ => []
  | i :: arest, b, skip =>
    match scanSkip i (b.drop skip) 0 skip with
    | none => []
    | some skip' => skip' :: skipTrace arest b skip'

/-- The per-line loop body of `generate_list_of_characters`: push each character
that is not a space and not already present (`char != ' ' && !chars.contains(&char)`). -/
def line_chars : List Char → List Char → List Char
  | [], chars => chars
  | c :: rest, chars =>
    line_chars rest (if c ≠ ' ' ∧ c ∉ chars then chars ++ [c] else chars)

/-- One `CharsetEntry` as built by `generate_list_of_characters` for one line:
collect the deduplicated non-space characters, then `chars.sort()`. -/
def mkCharsetEntry (word : List Char) : CharsetEntry :=
  { original := word, chars := List.insertionSort (· ≤ ·) (line_chars word []) }

/-- Embeds `fn generate_list_of_characters`: one entry per line, in line order. -/
def generate_list_of_characters (lines : List (List Char)) : List CharsetEntry :=
  lines.map mkCharsetEntry

/-- Embeds `fn find_disjoint_words_async` (sequentialised): for each state, emit a
`Comparisson` for every word whose charset is disjoint from the state's charset. -/
def find_disjoint_words (states words : List CharsetEntry) : List Comparisson :=
  states.flatMap fun state =>
    (words.filter fun word => is_disjoint state.chars word.chars).map
      fun word => { word := word, state := state }

/-- The per-pair test of `find_unique_disjoints_async`: the pair is kept when no
state with a different `original` is disjoint from the pair's word (`!fail`). -/
def uniqueKeep (states : List CharsetEntry) (p : Comparisson) : Bool :=
  !(states.any fun state =>
      decide (state.original ≠ p.state.original) && is_disjoint state.chars p.word.chars)

/-- Embeds `fn find_unique_disjoints_async` (sequentialised). -/
def find_unique_disjoints (states : List CharsetEntry)
    (disjoints : List Comparisson) : List Comparisson :=
  disjoints.filter (uniqueKeep states)

/-- Boolean lexicographic `≤` on character lists; embeds Rust's
`str::cmp` (byte order on UTF-8 agrees with code-point order) as used by the
comparator `x.state.original.cmp(y.state.original)`. -/
def lexLe : List Char → List Char → Bool
  | [], _ => true
  | _ :: _, [] => false
  | a :: as, b :: bs => if a < b then true else if b < a then false else lexLe as bs

/-- The comparator `|x, y| x.state.original.cmp(y.state.original)` passed to
`sort_by`, as a relation: `x` may stay before `y`. -/
def stateLe (x y : Comparisson) : Prop :=
  lexLe x.state.original y.state.original = true

instance : DecidableRel stateLe := fun _ _ => inferInstanceAs (Decidable (_ = true))

/-- Embeds `fn merge_disjoints`: drain the channel and stably sort the pairs by
the state's original text. -/
def merge_disjoints (disjoints : List Comparisson) : List Comparisson :=
  List.insertionSort stateLe disjoints

/-- The pipeline of `main` after the two files are read: build both charsets,
generate candidates, filter for uniqueness, merge and sort. -/
def run_pipeline (stateLines wordLines : List (List Char)) : List Comparisson :=
  merge_disjoints (find_unique_disjoints (generate_list_of_characters stateLines)
    (find_disjoint_words (generate_list_of_characters stateLines)
      (generate_list_of_characters wordLines)))

/-- The lines printed by `main`: `println!("{} => {}", state, word)` per pair. -/
def output_lines (stateLines wordLines : List (List Char)) : List (List Char) :=
  (run_pipeline stateLines wordLines).map fun p =>
    p.state.original ++ (' ' :: '=' :: '>' :: ' ' :: []) ++ p.word.original

/-! ### Correctness of `is_disjoint` -/

/-- The inner scan returns `none` (the Rust `return false`) exactly when the
current `a` element occurs in the scanned window. -/
lemma scanSkip_eq_none_iff (i : Char) :
    ∀ (l : List Char) (k s : Nat), scanSkip i l k s = none ↔ i ∈ l := by
  intro l
  induction l with
  | nil => intro k s; simp [scanSkip]
  | cons j rest ih =>
    intro k s
    by_cases h : i = j
    · simp [scanSkip, h]
    · simp [scanSkip, h, ih]

/-- When the inner scan completes, the final `skip` is either unchanged or the
window-relative index (offset by the initial `enumerate` counter `k`) of some
window element strictly below the current `a` element. -/
lemma scanSkip_some_spec (i : Char) :
    ∀ (l : List Char) (k s s' : Nat), scanSkip i l k s = some s' →
      s' = s ∨ ∃ m, ∃ h : m < l.length, s' = k + m ∧ l.get ⟨m, h⟩ < i := by
  intro l
  induction l with
  | nil =>
    intro k s s' h
    simp [scanSkip] at h
    exact Or.inl h.symm
  | cons j rest ih =>
    intro k s s' h
    by_cases hij : i = j
    · simp [scanSkip, hij] at h
    · simp only [scanSkip, if_neg hij] at h
      by_cases hji : j < i
      · rcases ih (k + 1) k s' (by simpa [hji] using h) with h1 | ⟨m, hm, rfl, hlt⟩
        · exact Or.inr ⟨0, by simp, by simpa using h1, by simpa using hji⟩
        · exact Or.inr ⟨m + 1, by simpa using hm, by omega, by simpa using hlt⟩
      · rcases ih (k + 1) s s' (by simpa [hji] using h) with h1 | ⟨m, hm, rfl, hlt⟩
        · exact Or.inl h1
        · exact Or.inr ⟨m + 1, by simpa using hm, by omega, by simpa using hlt⟩

/-- Safety of the (window-relative) `skip` update: if every `b` element before
the window start is below the current `a` element, the same holds for the new
window start returned by a completed scan. -/
lemma skip_inv_step {b : List Char} (hb : b.Sorted (· ≤ ·)) {i : Char} {s s' : Nat}
    (hinv : ∀ q ∈ b.take s, q < i)
    (hscan : scanSkip i (b.drop s) 0 s = some s') :
    ∀ q ∈ b.take s', q < i := by
  rcases scanSkip_some_spec i (b.drop s) 0 s s' hscan with rfl | ⟨m, hm, rfl, hlt⟩
  · exact hinv
  · intro q hq
    simp only [Nat.zero_add] at hq ⊢
    obtain ⟨p, hp, rfl⟩ := List.getElem_of_mem hq
    have hp' : p < m := by
      have := hp
      simp [List.length_take] at this
      omega
    have hpb : p < b.length := hp.trans_le (by simp [List.length_take])
    have hsm : s + m < b.length := by
      have := hm
      simp [List.length_drop] at this
      omega
    have hq' : (b.take m)[p] = b[p] := List.getElem_take b
    have hget : (b.drop s).get ⟨m, hm⟩ = b[s + m] := by
      simp [List.getElem_drop]
    have hle : b[p] ≤ b[s + m] := by
      rcases Nat.lt_or_ge p (s + m) with hlt' | hge
      · exact List.pairwise_iff_getElem.1 hb p (s + m) hpb hsm hlt'
      · have : p = s + m := by omega
        exact this ▸ le_refl _
    calc (b.take m)[p] = b[p] := hq'
      _ ≤ b[s + m] := hle
      _ < i := by rw [← hget]; exact hlt

/-- The threaded scan decides disjointness, given the window-safety invariant. -/
lemma isDisjointGo_eq_true_iff {b : List Char} (hb : b.Sorted (· ≤ ·)) :
    ∀ (a : List Char), a.Sorted (· ≤ ·) → ∀ s : Nat,
      (∀ q ∈ b.take s, ∀ x ∈ a, q < x) →
      (isDisjointGo a b s = true ↔ ∀ x ∈ a, x ∉ b) := by
  intro a
  induction a with
  | nil => intro _ s _; simp [isDisjointGo]
  | cons i arest ih =>
    intro ha s hinv
    have hinv_i : ∀ q ∈ b.take s, q < i := fun q hq =>
      hinv q hq i (List.mem_cons_self i arest)
    rw [isDisjointGo]
    cases hscan : scanSkip i (b.drop s) 0 s with
    | none =>
      have hi : i ∈ b.drop s := (scanSkip_eq_none_iff i _ 0 s).1 hscan
      have hib : i ∈ b := (List.drop_sublist s b).subset hi
      refine iff_of_false (by simp) fun hall => hall i (List.mem_cons_self i arest) hib
    | some s' =>
      have hinv' : ∀ q ∈ b.take s', ∀ x ∈ arest, q < x := by
        intro q hq x hx
        have hqi : q < i := skip_inv_step hb hinv_i hscan q hq
        exact hqi.trans_le (List.rel_of_sorted_cons ha x hx)
      have hib : i ∉ b := by
        intro hib
        rw [← List.take_append_drop s b] at hib
        rcases List.mem_append.1 hib with h1 | h2
        · exact lt_irrefl i (hinv_i i h1)
        · rw [(scanSkip_eq_none_iff i _ 0 s).2 h2] at hscan
          exact Option.noConfusion hscan
      rw [ih (List.Sorted.of_cons ha) s' hinv']
      constructor
      · intro hall x hx
        rcases List.mem_cons.1 hx with rfl | hx'
        · exact hib
        · exact hall x hx'
      · intro hall x hx
        exact hall x (List.mem_cons_of_mem i hx)

/-- `is_disjoint` decides list disjointness on sorted inputs. -/
lemma is_disjoint_eq_true_iff {a b : List Char}
    (ha : a.Sorted (· ≤ ·)) (hb : b.Sorted (· ≤ ·)) :
    is_disjoint a b = true ↔ ∀ x ∈ a, x ∉ b := by
  exact isDisjointGo_eq_true_iff hb a ha 0 (by simp)

/-- `is_disjoint` with an empty right argument scans nothing and returns `true`. -/
lemma is_disjoint_nil_right (a : List Char) : is_disjoint a [] = true := by
  show isDisjointGo a [] 0 = true
  generalize 0 = s
  induction a generalizing s with
  | nil => rfl
  | cons i arest ih => simpa [isDisjointGo, scanSkip] using ih _

/-! ### The lexicographic comparator -/

lemma lexLe_total : ∀ (a b : List Char), lexLe a b = true ∨ lexLe b a = true
  | [], _ => Or.inl rfl
  | _ :: _, [] => Or.inr rfl
  | x :: xs, y :: ys => by
    rcases lt_trichotomy x y with h | h | h
    · exact Or.inl (by simp [lexLe, h])
    · subst h
      rcases lexLe_total xs ys with h1 | h1
      · exact Or.inl (by simp [lexLe, lt_irrefl, h1])
      · exact Or.inr (by simp [lexLe, lt_irrefl, h1])
    · exact Or.inr (by simp [lexLe, h])

lemma lexLe_trans : ∀ {a b c : List Char},
    lexLe a b = true → lexLe b c = true → lexLe a c = true
  | [], _, _, _, _ => rfl
  | _ :: _, [], _, hab, _ => by simp [lexLe] at hab
  | _ :: _, _ :: _, [], _, hbc => by simp [lexLe] at hbc
  | x :: xs, y :: ys, z :: zs, hab, hbc => by
    rcases lt_trichotomy x y with hxy | hxy | hxy
    · rcases lt_trichotomy y z with hyz | hyz | hyz
      · simp [lexLe, hxy.trans hyz]
      · subst hyz; simp [lexLe, hxy]
      · exfalso; simp [lexLe, asymm hyz, hyz] at hbc
    · subst hxy
      rcases lt_trichotomy x z with hxz | hxz | hxz
      · simp [lexLe, hxz]
      · subst hxz
        have h1 : lexLe xs ys = true := by simpa [lexLe, lt_irrefl] using hab
        have h2 : lexLe ys zs = true := by simpa [lexLe, lt_irrefl] using hbc
        simpa [lexLe, lt_irrefl] using lexLe_trans h1 h2
      · exfalso; simp [lexLe, asymm hxz, hxz] at hbc
    · exfalso; simp [lexLe, asymm hxy, hxy] at hab

lemma lexLe_antisymm : ∀ {a b : List Char},
    lexLe a b = true → lexLe b a = true → a = b
  | [], [], _, _ => rfl
  | [], _ :: _, _, hba => by simp [lexLe] at hba
  | _ :: _, [], hab, _ => by simp [lexLe] at hab
  | x :: xs, y :: ys, hab, hba => by
    rcases lt_trichotomy x y with h | h | h
    · exfalso; simp [lexLe, asymm h, h] at hba
    · subst h
      have h1 : lexLe xs ys = true := by simpa [lexLe, lt_irrefl] using hab
      have h2 : lexLe ys xs = true := by simpa [lexLe, lt_irrefl] using hba
      rw [lexLe_antisymm h1 h2]
    · exfalso; simp [lexLe, asymm h, h] at hab

/-! ### The charset builder -/

lemma mem_line_chars : ∀ (w acc : List Char) (c : Char),
    c ∈ line_chars w acc ↔ c ∈ acc ∨ (c ∈ w ∧ c ≠ ' ')
  | [], acc, c => by simp [line_chars]
  | d :: rest, acc, c => by
    rw [line_chars]
    by_cases h : d ≠ ' ' ∧ d ∉ acc
    · rw [if_pos h, mem_line_chars]
      by_cases hcd : c = d
      · subst hcd
        simp [h.1]
      · simp [hcd, List.mem_append]
    · rw [if_neg h, mem_line_chars]
      push_neg at h
      by_cases hcd : c = d
      · subst hcd
        by_cases hsp : c = ' '
        · simp [hsp]
        · simp [hsp, h hsp]
      · simp [hcd]

lemma nodup_line_chars : ∀ (w acc : List Char), acc.Nodup → (line_chars w acc).Nodup
  | [], _, h => h
  | d :: rest, acc, h => by
    rw [line_chars]
    by_cases hd : d ≠ ' ' ∧ d ∉ acc
    · rw [if_pos hd]
      exact nodup_line_chars rest _ (by simp [List.nodup_append, h, hd.2])
    · rw [if_neg hd]
      exact nodup_line_chars rest _ h

lemma mkCharsetEntry_original (w : List Char) : (mkCharsetEntry w).original = w := rfl

lemma mkCharsetEntry_chars_nodup (w : List Char) : (mkCharsetEntry w).chars.Nodup :=
  ((List.perm_insertionSort _ _).nodup_iff).2 (nodup_line_chars w [] List.nodup_nil)

lemma mkCharsetEntry_chars_sorted (w : List Char) :
    (mkCharsetEntry w).chars.Sorted (· < ·) :=
  List.Sorted.lt_of_le (List.sorted_insertionSort _ _) (mkCharsetEntry_chars_nodup w)

lemma mem_mkCharsetEntry_chars (w : List Char) (c : Char) :
    c ∈ (mkCharsetEntry w).chars ↔ c ∈ w ∧ c ≠ ' ' := by
  show c ∈ List.insertionSort _ _ ↔ _
  rw [List.mem_insertionSort, mem_line_chars]
  simp

/-- Any two charsets built from the same line are equal (the builder is a function
of the line). -/
lemma mkCharsetEntry_eq_of_original {e : CharsetEntry} {w : List Char}
    (h : e = mkCharsetEntry w) : e = mkCharsetEntry e.original := by
  subst h; rfl

/-! ### Stability of the merge sort -/

/-- The stable sort of `merge_disjoints` leaves the relative order inside any
class of mutually `stateLe`-comparable pairs untouched. -/
lemma filter_merge_disjoints (l : List Comparisson) (p : Comparisson → Bool)
    (hp : ∀ x y : Comparisson, p x = true → p y = true → stateLe x y) :
    (merge_disjoints l).filter p = l.filter p := by
  haveI : IsTotal Comparisson stateLe := ⟨fun x y => lexLe_total _ _⟩
  haveI : IsTrans Comparisson stateLe := ⟨fun _ _ _ => lexLe_trans⟩
  have hpair : (l.filter p).Pairwise stateLe :=
    List.pairwise_of_forall_mem_list fun a ha b hb =>
      hp a b (List.of_mem_filter ha) (List.of_mem_filter hb)
  have hsub : List.Sublist (l.filter p) (List.insertionSort stateLe l) :=
    List.sublist_insertionSort hpair (List.filter_sublist l)
  have hidem : (l.filter p).filter p = l.filter p :=
    List.filter_eq_self.2 fun a ha => List.of_mem_filter ha
  have hsub2 : List.Sublist (l.filter p) ((List.insertionSort stateLe l).filter p) := by
    have := hsub.filter p
    rwa [hidem] at this
  have hlen : (l.filter p).length = ((List.insertionSort stateLe l).filter p).length :=
    (((List.perm_insertionSort stateLe l).filter p).length_eq).symm
  exact (hsub2.eq_of_length hlen).symm

/-! ### Membership characterisations of the two filter stages -/

/-- A pair is a candidate exactly when its state and word come from the two
lists and their charsets are disjoint. -/
lemma mem_find_disjoint_words {states words : List CharsetEntry} {p : Comparisson} :
    p ∈ find_disjoint_words states words ↔
      p.state ∈ states ∧ p.word ∈ words
        ∧ is_disjoint p.state.chars p.word.chars = true := by
  rw [find_disjoint_words]
  simp only [List.mem_flatMap, List.mem_map, List.mem_filter]
  constructor
  · rintro ⟨s, hs, w, ⟨hw, hdis⟩, rfl⟩
    exact ⟨hs, hw, hdis⟩
  · rintro ⟨hs, hw, hdis⟩
    exact ⟨p.state, hs, p.word, ⟨hw, hdis⟩, rfl⟩

/-- The retain condition of the uniqueness filter: the `fail` flag stays `false`
exactly when every state disjoint from the pair's word carries the same
original text as the pair's state. -/
lemma uniqueKeep_eq_true_iff {states : List CharsetEntry} {p : Comparisson} :
    uniqueKeep states p = true ↔
      ∀ s ∈ states, is_disjoint s.chars p.word.chars = true →
        s.original = p.state.original := by
  rw [uniqueKeep]
  simp only [Bool.not_eq_true', List.any_eq_false, Bool.and_eq_true, decide_eq_true_eq,
    not_and]
  constructor
  · intro h s hs hdis
    by_contra hne
    exact h s hs hne hdis
  · intro h s hs hne hdis
    exact hne (h s hs hdis)

/-! ### Claims -/

/-- **C1.** The uniqueness filter keeps a drained candidate pair exactly when no
state whose original text differs from the pair's state text has a charset
disjoint from the pair's word charset — equivalently, the pair's state text is
the only state text whose charset the word's charset is disjoint from. -/
theorem C1_uniqueness_filter (states : List CharsetEntry) (l : List Comparisson)
    (p : Comparisson) (hp : p ∈ l) :
    p ∈ find_unique_disjoints states l ↔
      ∀ s ∈ states, is_disjoint s.chars p.word.chars = true →
        s.original = p.state.original := by
  rw [find_unique_disjoints, List.mem_filter, uniqueKeep_eq_true_iff]
  simp [hp]

/-- Witness for C1 at the example input of the spec. -/
theorem C1_uniqueness_filter_witness :
    { word := mkCharsetEntry "abx".toList, state := mkCharsetEntry "def".toList }
        ∈ find_unique_disjoints
            [mkCharsetEntry "abc".toList, mkCharsetEntry "def".toList]
            [{ word := mkCharsetEntry "abx".toList, state := mkCharsetEntry "def".toList }]
      ↔ ∀ s ∈ [mkCharsetEntry "abc".toList, mkCharsetEntry "def".toList],
          is_disjoint s.chars (mkCharsetEntry "abx".toList).chars = true →
            s.original = (mkCharsetEntry "def".toList).original :=
  C1_uniqueness_filter _ _ _ (by decide)

/-- **C2.** On states `["abc", "def"]` and words `["xyz", "abx"]` the full
pipeline prints exactly the single line `def => abx`. -/
theorem C2_end_to_end :
    output_lines ["abc".toList, "def".toList] ["xyz".toList, "abx".toList]
      = ["def => abx".toList] := by decide

/-- **C3.** On ascending-sorted inputs `is_disjoint` returns `true` iff the two
sequences share no element; it returns `true` whenever either input is empty. -/
theorem C3_is_disjoint_correct (a b : List Char)
    (ha : a.Sorted (· ≤ ·)) (hb : b.Sorted (· ≤ ·)) :
    (is_disjoint a b = true ↔ ∀ x ∈ a, x ∉ b)
    ∧ is_disjoint a [] = true ∧ is_disjoint [] b = true :=
  ⟨is_disjoint_eq_true_iff ha hb, is_disjoint_nil_right a, rfl⟩

/-- Witness for C3. -/
theorem C3_is_disjoint_correct_witness :
    (is_disjoint "abc".toList "xyz".toList = true
        ↔ ∀ x ∈ "abc".toList, x ∉ "xyz".toList)
    ∧ is_disjoint "abc".toList [] = true ∧ is_disjoint [] "xyz".toList = true :=
  C3_is_disjoint_correct _ _ (by decide) (by decide)

/-- **C4 (counterexample).** On the sorted inputs `a = "cd"`, `b = "ab"` the
successive values of the resume offset `skip` are `1` then `0`: the offset is
not monotonically non-decreasing and does reset toward zero (it is assigned an
index relative to the current scan window, not an absolute position in `b`). -/
theorem C4_skip_not_monotone :
    "cd".toList.Sorted (· ≤ ·) ∧ "ab".toList.Sorted (· ≤ ·)
    ∧ skipTrace "cd".toList "ab".toList 0 = [1, 0]
    ∧ ¬ (0 :: skipTrace "cd".toList "ab".toList 0).Sorted (· ≤ ·) := by
  refine ⟨by decide, by decide, by decide, ?_⟩
  have h2 : skipTrace "cd".toList "ab".toList 0 = [1, 0] := by decide
  rw [h2]
  decide

/-- Whole-run safety of the (window-relative) skip offset: after the `t`-th
completed scan, every `b` element before the recorded offset is strictly below
every `a` element not yet processed. -/
lemma skipTrace_safe {b : List Char} (hb : b.Sorted (· ≤ ·)) :
    ∀ (a : List Char), a.Sorted (· ≤ ·) → ∀ s : Nat,
      (∀ q ∈ b.take s, ∀ x ∈ a, q < x) →
      ∀ (t s' : Nat), (skipTrace a b s)[t]? = some s' →
        ∀ q ∈ b.take s', ∀ x ∈ a.drop (t + 1), q < x := by
  intro a
  induction a with
  | nil =>
    intro _ s _ t s' h
    simp [skipTrace] at h
  | cons i arest ih =>
    intro ha s hinv t s' htrace
    rw [skipTrace] at htrace
    cases hscan : scanSkip i (b.drop s) 0 s with
    | none =>
      rw [hscan] at htrace
      simp at htrace
    | some s0 =>
      rw [hscan] at htrace
      have hinv0 : ∀ q ∈ b.take s0, ∀ x ∈ arest, q < x := by
        intro q hq x hx
        have hqi : q < i :=
          skip_inv_step hb (fun q hq => hinv q hq i (List.mem_cons_self i arest)) hscan q hq
        exact hqi.trans_le (List.rel_of_sorted_cons ha x hx)
      cases t with
      | zero =>
        rw [List.getElem?_cons_zero] at htrace
        cases htrace
        intro q hq x hx
        exact hinv0 q hq x (by simpa using hx)
      | succ t' =>
        rw [List.getElem?_cons_succ] at htrace
        intro q hq x hx
        exact ih (List.Sorted.of_cons ha) s0 hinv0 t' s' htrace q hq x (by simpa using hx)

/-- **C4 (amended).** The resume offset is not monotone (see the
counterexample): it is assigned an index relative to the current scan window
and can decrease.  What the scan does maintain, for every pair of sorted
inputs, is that every `b` element before the recorded offset is strictly less
than every not-yet-processed `a` element, so the skipped prefix can never hide
a shared element. -/
theorem C4_skip_window_safety (a b : List Char)
    (ha : a.Sorted (· ≤ ·)) (hb : b.Sorted (· ≤ ·))
    (t s' : Nat) (h : (skipTrace a b 0)[t]? = some s') :
    ∀ q ∈ b.take s', ∀ x ∈ a.drop (t + 1), q < x :=
  skipTrace_safe hb a ha 0 (by simp) t s' h

/-- Witness for the amended C4 at the counterexample input: after the first
scan the recorded offset is `1`, and the one skipped element `'a'` is below the
remaining `a` element `'d'`. -/
theorem C4_skip_window_safety_witness : ('a' : Char) < 'd' :=
  C4_skip_window_safety "cd".toList "ab".toList (by decide) (by decide) 0 1 (by decide)
    'a' (by decide) 'd' (by decide)

/-- **C9.** `is_disjoint` is symmetric on ascending-sorted inputs. -/
theorem C9_is_disjoint_symm (a b : List Char)
    (ha : a.Sorted (· ≤ ·)) (hb : b.Sorted (· ≤ ·)) :
    is_disjoint a b = is_disjoint b a := by
  rw [Bool.eq_iff_iff, is_disjoint_eq_true_iff ha hb, is_disjoint_eq_true_iff hb ha]
  constructor
  · intro h x hxb hxa
    exact h x hxa hxb
  · intro h x hxa hxb
    exact h x hxb hxa

/-- Witness for C9. -/
theorem C9_is_disjoint_symm_witness :
    is_disjoint "abc".toList "abx".toList = is_disjoint "abx".toList "abc".toList :=
  C9_is_disjoint_symm _ _ (by decide) (by decide)

/-- **C5.** The charset builder yields one entry per line in line order (blank
lines included, with an empty charset), and each entry's `chars` is the
strictly-sorted (hence duplicate-free) sequence of exactly the non-space
characters of its line. -/
theorem C5_charset_builder (lines : List (List Char)) :
    (generate_list_of_characters lines).map CharsetEntry.original = lines
    ∧ ∀ e ∈ generate_list_of_characters lines,
        e.chars.Sorted (· < ·) ∧ ∀ c : Char, (c ∈ e.chars ↔ c ∈ e.original ∧ c ≠ ' ') := by
  constructor
  · rw [generate_list_of_characters, List.map_map]
    exact List.map_id lines
  · intro e he
    rw [generate_list_of_characters, List.mem_map] at he
    obtain ⟨w, _, rfl⟩ := he
    exact ⟨mkCharsetEntry_chars_sorted w, fun c => mem_mkCharsetEntry_chars w c⟩

/-- Witness for C5 on a list with a repeated-character line, a blank line and a
line containing a space. -/
theorem C5_charset_builder_witness :
    (generate_list_of_characters ["aba c".toList, [], "cb".toList]).map CharsetEntry.original
        = ["aba c".toList, [], "cb".toList]
    ∧ ∀ e ∈ generate_list_of_characters ["aba c".toList, [], "cb".toList],
        e.chars.Sorted (· < ·) ∧ ∀ c : Char, (c ∈ e.chars ↔ c ∈ e.original ∧ c ≠ ' ') :=
  C5_charset_builder _

/-- **C6.** The merger returns a permutation of the drained pairs, pairwise
ordered by the lexicographic comparison of the states' original texts, and the
sort is stable: the pairs carrying any fixed state text appear in exactly the
order in which they were drained. -/
theorem C6_merge_sort (l : List Comparisson) :
    List.Perm (merge_disjoints l) l
    ∧ (merge_disjoints l).Sorted stateLe
    ∧ ∀ k : List Char,
        (merge_disjoints l).filter (fun p => decide (p.state.original = k))
          = l.filter (fun p => decide (p.state.original = k)) := by
  haveI : IsTotal Comparisson stateLe := ⟨fun x y => lexLe_total _ _⟩
  haveI : IsTrans Comparisson stateLe := ⟨fun _ _ _ => lexLe_trans⟩
  refine ⟨List.perm_insertionSort _ _, List.sorted_insertionSort _ _, fun k => ?_⟩
  refine filter_merge_disjoints l _ fun x y hx hy => ?_
  rw [decide_eq_true_eq] at hx hy
  show lexLe x.state.original y.state.original = true
  rw [hx, hy]
  rcases lexLe_total k k with h | h <;> exact h

/-- Witness for C6 on a drained list with a duplicated state text. -/
theorem C6_merge_sort_witness :
    List.Perm (merge_disjoints
        [{ word := mkCharsetEntry "z".toList, state := mkCharsetEntry "b".toList },
         { word := mkCharsetEntry "y".toList, state := mkCharsetEntry "a".toList },
         { word := mkCharsetEntry "x".toList, state := mkCharsetEntry "a".toList }])
      [{ word := mkCharsetEntry "z".toList, state := mkCharsetEntry "b".toList },
       { word := mkCharsetEntry "y".toList, state := mkCharsetEntry "a".toList },
       { word := mkCharsetEntry "x".toList, state := mkCharsetEntry "a".toList }]
    ∧ (merge_disjoints
        [{ word := mkCharsetEntry "z".toList, state := mkCharsetEntry "b".toList },
         { word := mkCharsetEntry "y".toList, state := mkCharsetEntry "a".toList },
         { word := mkCharsetEntry "x".toList, state := mkCharsetEntry "a".toList }]).Sorted stateLe
    ∧ ∀ k : List Char,
        (merge_disjoints
            [{ word := mkCharsetEntry "z".toList, state := mkCharsetEntry "b".toList },
             { word := mkCharsetEntry "y".toList, state := mkCharsetEntry "a".toList },
             { word := mkCharsetEntry "x".toList, state := mkCharsetEntry "a".toList }]).filter
            (fun p => decide (p.state.original = k))
          = [{ word := mkCharsetEntry "z".toList, state := mkCharsetEntry "b".toList },
             { word := mkCharsetEntry "y".toList, state := mkCharsetEntry "a".toList },
             { word := mkCharsetEntry "x".toList, state := mkCharsetEntry "a".toList }].filter
            (fun p => decide (p.state.original = k)) :=
  C6_merge_sort _

/-- Decomposition of membership in the final merged output. -/
lemma mem_run_pipeline {stateLines wordLines : List (List Char)} {p : Comparisson}
    (hp : p ∈ run_pipeline stateLines wordLines) :
    p.state ∈ generate_list_of_characters stateLines
    ∧ p.word ∈ generate_list_of_characters wordLines
    ∧ is_disjoint p.state.chars p.word.chars = true
    ∧ uniqueKeep (generate_list_of_characters stateLines) p = true := by
  rw [run_pipeline] at hp
  have h1 : p ∈ find_unique_disjoints (generate_list_of_characters stateLines)
      (find_disjoint_words (generate_list_of_characters stateLines)
        (generate_list_of_characters wordLines)) :=
    ((List.perm_insertionSort _ _).mem_iff).1 hp
  rw [find_unique_disjoints, List.mem_filter] at h1
  obtain ⟨hcand, hkeep⟩ := h1
  rw [mem_find_disjoint_words] at hcand
  exact ⟨hcand.1, hcand.2.1, hcand.2.2, hkeep⟩

/-- Every entry of the built charset list is the builder's image of its own
original text. -/
lemma eq_mk_of_mem_generate {lines : List (List Char)} {e : CharsetEntry}
    (he : e ∈ generate_list_of_characters lines) : e = mkCharsetEntry e.original := by
  rw [generate_list_of_characters, List.mem_map] at he
  obtain ⟨w, _, rfl⟩ := he
  rfl

/-- **C10.** When the state texts are pairwise distinct, no word text is ever
paired with two different states in the final output: any two output pairs
carrying the same word text carry the same state entry. -/
theorem C10_word_at_most_one_state (stateLines wordLines : List (List Char))
    (_hnd : stateLines.Nodup) (p q : Comparisson)
    (hp : p ∈ run_pipeline stateLines wordLines)
    (hq : q ∈ run_pipeline stateLines wordLines)
    (hw : p.word.original = q.word.original) :
    p.state = q.state := by
  obtain ⟨hps, hpw, hpd, hpk⟩ := mem_run_pipeline hp
  obtain ⟨hqs, hqw, hqd, hqk⟩ := mem_run_pipeline hq
  have hword : p.word = q.word := by
    rw [eq_mk_of_mem_generate hpw, eq_mk_of_mem_generate hqw, hw]
  have horig : q.state.original = p.state.original := by
    refine uniqueKeep_eq_true_iff.1 hpk q.state hqs ?_
    rw [hword]
    exact hqd
  rw [eq_mk_of_mem_generate hps, eq_mk_of_mem_generate hqs, horig]

/-- Witness for C10: both output pairs of a two-word run carry the word `abx`
only once and the same state. -/
theorem C10_word_at_most_one_state_witness :
    ({ word := mkCharsetEntry "abx".toList, state := mkCharsetEntry "def".toList } : Comparisson).state
      = ({ word := mkCharsetEntry "abx".toList, state := mkCharsetEntry "def".toList } : Comparisson).state :=
  C10_word_at_most_one_state ["abc".toList, "def".toList] ["xyz".toList, "abx".toList]
    (by decide)
    { word := mkCharsetEntry "abx".toList, state := mkCharsetEntry "def".toList }
    { word := mkCharsetEntry "abx".toList, state := mkCharsetEntry "def".toList }
    (by decide) (by decide) rfl

/-! ### Counting pairs through the pipeline (for the duplicate-state claim) -/

lemma mkCharsetEntry_injective : Function.Injective mkCharsetEntry := by
  intro a b h
  have := congrArg CharsetEntry.original h
  simpa [mkCharsetEntry] using this

/-- Each occurrence of a state contributes its own copies of a pair to the
candidate stream. -/
lemma count_flatMap_le (f : CharsetEntry → List Comparisson) (e : CharsetEntry)
    (x : Comparisson) :
    ∀ states : List CharsetEntry,
      states.count e * (f e).count x ≤ (states.flatMap f).count x := by
  intro states
  induction states with
  | nil => simp
  | cons s rest ih =>
    rw [List.flatMap_cons, List.count_append, List.count_cons]
    by_cases hse : s = e
    · subst hse
      simp only [beq_self_eq_true, if_true, Nat.succ_mul]
      omega
    · have hbeq : (s == e) = false := beq_eq_false_iff_ne.2 hse
      simp only [hbeq, Bool.false_eq_true, if_false, Nat.add_zero]
      omega

/-- The builder preserves line multiplicities. -/
lemma count_map_mkCharsetEntry (lines : List (List Char)) (t : List Char) :
    lines.count t = (lines.map mkCharsetEntry).count (mkCharsetEntry t) := by
  induction lines with
  | nil => rfl
  | cons l rest ih =>
    rw [List.map_cons, List.count_cons, List.count_cons, ih]
    by_cases h : l = t
    · subst h
      simp
    · have h1 : (l == t) = false := beq_eq_false_iff_ne.2 h
      have h2 : (mkCharsetEntry l == mkCharsetEntry t) = false :=
        beq_eq_false_iff_ne.2 fun hc => h (mkCharsetEntry_injective hc)
      rw [h1, h2]

/-- **C8.** If the state list repeats a text `t` (at least) twice and a word
`w` is disjoint from `t`'s charset but from no differently-named state's
charset, then the pair `(t, w)` is not dropped: it occurs (at least) twice in
the final merged output (stably ordered — the two occurrences are identical
pairs). -/
theorem C8_duplicate_states (stateLines wordLines : List (List Char)) (t w : List Char)
    (hcount : 2 ≤ stateLines.count t) (hw : w ∈ wordLines)
    (hdis : is_disjoint (mkCharsetEntry t).chars (mkCharsetEntry w).chars = true)
    (hno : ∀ l ∈ stateLines, l ≠ t →
        is_disjoint (mkCharsetEntry l).chars (mkCharsetEntry w).chars = false) :
    2 ≤ (run_pipeline stateLines wordLines).count
        { word := mkCharsetEntry w, state := mkCharsetEntry t } := by
  have hkeep : uniqueKeep (generate_list_of_characters stateLines)
      { word := mkCharsetEntry w, state := mkCharsetEntry t } = true := by
    rw [uniqueKeep_eq_true_iff]
    intro s hs hsd
    rw [generate_list_of_characters, List.mem_map] at hs
    obtain ⟨l, hl, rfl⟩ := hs
    by_cases hlt : l = t
    · subst hlt; rfl
    · rw [hno l hl hlt] at hsd
      simp at hsd
  have hmerge : (run_pipeline stateLines wordLines).count
        { word := mkCharsetEntry w, state := mkCharsetEntry t }
      = (find_unique_disjoints (generate_list_of_characters stateLines)
          (find_disjoint_words (generate_list_of_characters stateLines)
            (generate_list_of_characters wordLines))).count
          { word := mkCharsetEntry w, state := mkCharsetEntry t } :=
    (List.perm_insertionSort _ _).count_eq _
  have hfilter : (find_unique_disjoints (generate_list_of_characters stateLines)
          (find_disjoint_words (generate_list_of_characters stateLines)
            (generate_list_of_characters wordLines))).count
          { word := mkCharsetEntry w, state := mkCharsetEntry t }
      = (find_disjoint_words (generate_list_of_characters stateLines)
            (generate_list_of_characters wordLines)).count
          { word := mkCharsetEntry w, state := mkCharsetEntry t } := by
    rw [find_unique_disjoints]
    exact List.count_filter hkeep
  rw [hmerge, hfilter, find_disjoint_words]
  have hA : stateLines.count t
      = (generate_list_of_characters stateLines).count (mkCharsetEntry t) := by
    rw [generate_list_of_characters]
    exact count_map_mkCharsetEntry stateLines t
  have hB : 1 ≤ (((generate_list_of_characters wordLines).filter fun word =>
        is_disjoint (mkCharsetEntry t).chars word.chars).map fun word =>
          ({ word := word, state := mkCharsetEntry t } : Comparisson)).count
        { word := mkCharsetEntry w, state := mkCharsetEntry t } := by
    rw [List.one_le_count_iff]
    refine List.mem_map.2 ⟨mkCharsetEntry w, List.mem_filter.2 ⟨?_, hdis⟩, rfl⟩
    rw [generate_list_of_characters]
    exact List.mem_map.2 ⟨w, hw, rfl⟩
  calc 2 = 2 * 1 := by omega
    _ ≤ ((generate_list_of_characters stateLines).count (mkCharsetEntry t))
          * (((generate_list_of_characters wordLines).filter fun word =>
              is_disjoint (mkCharsetEntry t).chars word.chars).map fun word =>
                ({ word := word, state := mkCharsetEntry t } : Comparisson)).count
              { word := mkCharsetEntry w, state := mkCharsetEntry t } :=
      Nat.mul_le_mul (hA ▸ hcount) hB
    _ ≤ _ := count_flatMap_le
        (fun state => ((generate_list_of_characters wordLines).filter fun word =>
            is_disjoint state.chars word.chars).map fun word =>
              ({ word := word, state := state } : Comparisson))
        (mkCharsetEntry t) _ _

/-- Witness for C8 on the duplicated state list `["ab", "ab"]` and the single
word `"c"`. -/
theorem C8_duplicate_states_witness :
    2 ≤ (run_pipeline ["ab".toList, "ab".toList] ["c".toList]).count
        { word := mkCharsetEntry "c".toList, state := mkCharsetEntry "ab".toList } :=
  C8_duplicate_states ["ab".toList, "ab".toList] ["c".toList] "ab".toList "c".toList
    (by decide) (by decide) (by decide) (by decide)

/-! ### Permutation behaviour of the pipeline -/

/-- **C7 (counterexample).** Permuting the word list can change the final output
sequence: with the single state `ab` and the words `c`, `d` both kept, the two
output pairs share the state text and the stable sort leaves them in word-list
order. -/
theorem C7_word_order_dependent :
    List.Perm ["d".toList, "c".toList] ["c".toList, "d".toList]
    ∧ run_pipeline ["ab".toList] ["d".toList, "c".toList]
        ≠ run_pipeline ["ab".toList] ["c".toList, "d".toList] := by
  constructor
  · decide
  · decide

/-- `List.any` only depends on the multiset of elements. -/
lemma any_eq_of_perm {l₁ l₂ : List CharsetEntry} (h : List.Perm l₁ l₂)
    (f : CharsetEntry → Bool) : l₁.any f = l₂.any f := by
  rw [Bool.eq_iff_iff, List.any_eq_true, List.any_eq_true]
  constructor
  · rintro ⟨x, hx, hfx⟩
    exact ⟨x, h.mem_iff.1 hx, hfx⟩
  · rintro ⟨x, hx, hfx⟩
    exact ⟨x, h.mem_iff.2 hx, hfx⟩

/-- **C7 (amended).** Permuting either input list leaves the final output
unchanged as a multiset, and leaves the sequence of output state texts exactly
unchanged; only the relative order of output pairs sharing the same state text
can change (it follows the word-list order, as the counterexample shows). -/
theorem C7_perm_invariance (S S' W W' : List (List Char))
    (hS : List.Perm S' S) (hW : List.Perm W' W) :
    List.Perm (run_pipeline S' W') (run_pipeline S W)
    ∧ (run_pipeline S' W').map (fun p => p.state.original)
        = (run_pipeline S W).map (fun p => p.state.original) := by
  haveI : IsTotal Comparisson stateLe := ⟨fun x y => lexLe_total _ _⟩
  haveI : IsTrans Comparisson stateLe := ⟨fun _ _ _ => lexLe_trans⟩
  have hSe : List.Perm (generate_list_of_characters S') (generate_list_of_characters S) :=
    hS.map _
  have hWe : List.Perm (generate_list_of_characters W') (generate_list_of_characters W) :=
    hW.map _
  have hcand : List.Perm
      (find_disjoint_words (generate_list_of_characters S') (generate_list_of_characters W'))
      (find_disjoint_words (generate_list_of_characters S) (generate_list_of_characters W)) := by
    rw [find_disjoint_words, find_disjoint_words]
    refine List.Perm.trans (List.Perm.flatMap_left _ fun s _ => ?_) (hSe.flatMap_right _)
    exact (hWe.filter _).map _
  have hpred : ∀ p : Comparisson,
      uniqueKeep (generate_list_of_characters S') p
        = uniqueKeep (generate_list_of_characters S) p := by
    intro p
    rw [uniqueKeep, uniqueKeep, any_eq_of_perm hSe]
  have huniq : List.Perm
      (find_unique_disjoints (generate_list_of_characters S')
        (find_disjoint_words (generate_list_of_characters S')
          (generate_list_of_characters W')))
      (find_unique_disjoints (generate_list_of_characters S)
        (find_disjoint_words (generate_list_of_characters S)
          (generate_list_of_characters W))) := by
    rw [find_unique_disjoints, find_unique_disjoints,
      List.filter_congr fun a _ => hpred a]
    exact hcand.filter _
  have hperm : List.Perm (run_pipeline S' W') (run_pipeline S W) := by
    rw [run_pipeline, run_pipeline]
    exact ((List.perm_insertionSort _ _).trans huniq).trans
      (List.perm_insertionSort _ _).symm
  refine ⟨hperm, ?_⟩
  haveI : IsAntisymm (List Char) (fun a b => lexLe a b = true) :=
    ⟨fun _ _ => lexLe_antisymm⟩
  have h1 : ((run_pipeline S' W').map (fun p => p.state.original)).Sorted
      (fun a b => lexLe a b = true) :=
    List.Pairwise.map _ (fun _ _ hr => hr) (List.sorted_insertionSort stateLe _)
  have h2 : ((run_pipeline S W).map (fun p => p.state.original)).Sorted
      (fun a b => lexLe a b = true) :=
    List.Pairwise.map _ (fun _ _ hr => hr) (List.sorted_insertionSort stateLe _)
  exact List.eq_of_perm_of_sorted (hperm.map _) h1 h2

/-- Witness for the amended C7: swapping both input lists of the end-to-end
example. -/
theorem C7_perm_invariance_witness :
    List.Perm (run_pipeline ["def".toList, "abc".toList] ["abx".toList, "xyz".toList])
      (run_pipeline ["abc".toList, "def".toList] ["xyz".toList, "abx".toList])
    ∧ (run_pipeline ["def".toList, "abc".toList] ["abx".toList, "xyz".toList]).map
        (fun p => p.state.original)
      = (run_pipeline ["abc".toList, "def".toList] ["xyz".toList, "abx".toList]).map
        (fun p => p.state.original) :=
  C7_perm_invariance ["abc".toList, "def".toList] ["def".toList, "abc".toList]
    ["xyz".toList, "abx".toList] ["abx".toList, "xyz".toList] (by decide) (by decide)

end UniqueStateDisjoints
